import Mathlib

/-!
Verification development for the sensorimotor predictive-network engine
(`Networks.py`).  The development embeds, over the real numbers:

* the geometric diagnostics (`compute_weighted_affine_errors_in_P`,
  `compute_topology_error_in_H`) built on condensed pairwise-distance
  vectors (`scipy.spatial.distance.pdist`) and a least-squares affine fit
  (`sklearn.linear_model.LinearRegression`, abstracted by the predicate
  `IsLeastSquaresFit` since the fit itself is library code);
* the polynomial learning-rate decay (`tf.train.polynomial_decay`);
* the weight-sharing variable store used by the twin encoder branches
  (`tf.variable_scope` with `AUTO_REUSE`);
* the `full_train` cycle structure, the display-process lifecycle, and the
  best-effort hyper-parameter `save`.
-/

noncomputable section

open scoped BigOperators

/-- Points of the evaluation sets are real vectors of a fixed dimension. -/
abbrev Point (d : ℕ) := Fin d → ℝ

/-- A point set (one row per sample), as handed to the diagnostics. -/
abbrev PointSet (d : ℕ) := List (Point d)

/-- Euclidean distance between two rows, the metric used by `pdist`. -/
def euclidDist {d : ℕ} (x y : Point d) : ℝ :=
  Real.sqrt (∑ i, (x i - y i) ^ 2)

/-- Condensed pairwise-distance vector of a point set, in the order produced
by `scipy.spatial.distance.pdist`: all pairs with the first point, then the
pairs of the tail. -/
def pdist {d : ℕ} : PointSet d → List ℝ
  | [] => []
  | x :: xs => xs.map (euclidDist x) ++ pdist xs

/-- Maximum of a vector of distances (`numpy` `.max()`); distances are
nonnegative, so folding `max` from `0` computes the maximum on every
nonempty distance vector. -/
def npMax (l : List ℝ) : ℝ := l.foldr max 0

/-- Arithmetic mean of a vector (`numpy` `np.mean`). -/
def npMean (l : List ℝ) : ℝ := l.sum / l.length

/-- All unordered index pairs `(i, j)`, `i < j < n`, in the enumeration
order of the condensed distance vector. -/
def indexPairs : ℕ → List (ℕ × ℕ)
  | 0 => []
  | n + 1 =>
    (List.range n).map (fun j => (0, j + 1)) ++
      (indexPairs n).map (fun p => (p.1 + 1, p.2 + 1))

theorem mem_indexPairs {n i j : ℕ} :
    (i, j) ∈ indexPairs n ↔ i < j ∧ j < n := by
  induction n generalizing i j with
  | zero => simp [indexPairs]
  | succ n ih =>
    constructor
    · intro h
      rcases List.mem_append.1 h with h | h
      · rcases List.mem_map.1 h with ⟨k, hk, hkeq⟩
        rcases Prod.mk.injEq .. ▸ hkeq with ⟨h1, h2⟩
        obtain rfl := h1.symm
        obtain rfl := h2.symm
        exact ⟨Nat.succ_pos _, Nat.succ_lt_succ (List.mem_range.1 hk)⟩
      · rcases List.mem_map.1 h with ⟨⟨a, b⟩, hab, habeq⟩
        rcases Prod.mk.injEq .. ▸ habeq with ⟨h1, h2⟩
        obtain rfl := h1.symm
        obtain rfl := h2.symm
        rcases ih.1 hab with ⟨hlt, hb⟩
        exact ⟨Nat.succ_lt_succ hlt, Nat.succ_lt_succ hb⟩
    · rintro ⟨hij, hjn⟩
      rcases Nat.eq_zero_or_pos i with rfl | hi
      · refine List.mem_append.2 (Or.inl ?_)
        rcases Nat.exists_eq_add_of_lt hij with ⟨k, rfl⟩
        exact List.mem_map.2 ⟨k, List.mem_range.2 (by omega), by simp [Nat.add_comm]⟩
      · refine List.mem_append.2 (Or.inr ?_)
        rcases Nat.exists_eq_add_of_lt hi with ⟨a, rfl⟩
        rcases Nat.exists_eq_add_of_lt (show 0 < j by omega) with ⟨b, rfl⟩
        exact List.mem_map.2 ⟨(a, b), ih.2 ⟨by omega, by omega⟩, by simp [Nat.add_comm]⟩

theorem indexPairs_nodup (n : ℕ) : (indexPairs n).Nodup := by
  induction n with
  | zero => simp [indexPairs]
  | succ n ih =>
    refine List.Nodup.append ?_ ?_ ?_
    · exact (List.nodup_range n).map (fun a b hab => by
        have := congrArg Prod.snd hab
        omega)
    · exact ih.map (fun p q hpq => by
        have h1 := congrArg Prod.fst hpq
        have h2 := congrArg Prod.snd hpq
        exact Prod.ext (by omega) (by omega))
    · intro p hp hq
      rcases List.mem_map.1 hp with ⟨k, _, rfl⟩
      rcases List.mem_map.1 hq with ⟨⟨a, b⟩, _, habeq⟩
      have := congrArg Prod.fst habeq
      simp at this

/-- A list equals the enumeration of its entries over its index range. -/
theorem map_getD_range {α β : Type _} (l : List α) (f : α → β) (a : α) :
    l.map f = (List.range l.length).map (fun j => f (l.getD j a)) := by
  induction l with
  | nil => simp
  | cons x xs ih =>
    simp only [List.map_cons, List.length_cons, List.range_succ_eq_map,
      List.map_map]
    refine congrArg (f x :: ·) ?_
    rw [ih]
    exact List.map_congr_left (fun j _ => rfl)

/-- The condensed distance vector is exactly the distance evaluated over
all unordered index pairs, in enumeration order. -/
theorem pdist_eq_indexPairs {d : ℕ} (l : PointSet d) :
    pdist l =
      (indexPairs l.length).map
        (fun p => euclidDist (l.getD p.1 0) (l.getD p.2 0)) := by
  induction l with
  | nil => simp [pdist, indexPairs]
  | cons x xs ih =>
    simp only [pdist, List.length_cons, indexPairs, List.map_append,
      List.map_map]
    refine congrArg₂ (· ++ ·) ?_ ?_
    · rw [map_getD_range xs (euclidDist x) 0]
      exact List.map_congr_left (fun j _ => rfl)
    · rw [ih]
      exact List.map_congr_left (fun p _ => by
        simp [Function.comp, List.getD_cons_succ])

/-- Application of an affine map `p ↦ p · coef + intercept` to one row, the
prediction `lin_reg_model.predict` performs after a fit. -/
def affApply {dO dT : ℕ} (coef : Matrix (Fin dO) (Fin dT) ℝ)
    (intercept : Point dT) (p : Point dO) : Point dT :=
  fun j => (∑ i, p i * coef i j) + intercept j

/-- Residual sum of squares of an affine map from `origin_set` rows onto
`target_set` rows, the objective `sklearn`'s ordinary least squares
minimizes. -/
def rss {dO dT : ℕ} (coef : Matrix (Fin dO) (Fin dT) ℝ)
    (intercept : Point dT) (origin_set : PointSet dO)
    (target_set : PointSet dT) : ℝ :=
  (List.zipWith
    (fun o t => ∑ j, (affApply coef intercept o j - t j) ^ 2)
    origin_set target_set).sum

/-- Characterization of the coefficients and intercept returned by
`lin_reg_model.fit(origin_set, target_set)`: they minimize the residual
sum of squares over all affine maps. -/
def IsLeastSquaresFit {dO dT : ℕ} (coef : Matrix (Fin dO) (Fin dT) ℝ)
    (intercept : Point dT) (origin_set : PointSet dO)
    (target_set : PointSet dT) : Prop :=
  ∀ (coef' : Matrix (Fin dO) (Fin dT) ℝ) (intercept' : Point dT),
    rss coef intercept origin_set target_set ≤
      rss coef' intercept' origin_set target_set

/-- Embedding of `compute_weighted_affine_errors_in_P` (`Networks.py`,
lines 250-277).  The least-squares fit delegated to
`sklearn.linear_model.LinearRegression` is abstracted by its result
`(coef, intercept)`; the rest follows the source line by line: the
projection `fitted` of `origin_set`, the condensed distance vectors of
`target_set` and of `fitted`, and the mean of
`|pdist_fitted - pdist_target| / pdist_target.max()
  * exp(-weight * pdist_target / pdist_target.max())`. -/
def compute_weighted_affine_errors_in_P {dO dT : ℕ}
    (coef : Matrix (Fin dO) (Fin dT) ℝ) (intercept : Point dT)
    (target_set : PointSet dT) (origin_set : PointSet dO)
    (weight : ℝ) : ℝ × PointSet dT :=
  let fitted := origin_set.map (affApply coef intercept)
  let pdist_target := pdist target_set
  let pdist_fitted := pdist fitted
  let m := npMax pdist_target
  (npMean (List.zipWith
      (fun df dt => |df - dt| / m * Real.exp (-weight * dt / m))
      pdist_fitted pdist_target),
   fitted)

/-- Embedding of `compute_topology_error_in_H` (`Networks.py`, lines
279-297): the mean of
`pdist_h / pdist_h.max() * exp(-weight * pdist_p / pdist_p.max())`. -/
def compute_topology_error_in_H {dP dH : ℕ}
    (p_set : PointSet dP) (h_set : PointSet dH) (weight : ℝ) : ℝ :=
  let pdist_h := pdist h_set
  let pdist_p := pdist p_set
  npMean (List.zipWith
    (fun dh dp => dh / npMax pdist_h * Real.exp (-weight * dp / npMax pdist_p))
    pdist_h pdist_p)

/-- Modelled from the spec: the weighted affine error as §4.5 words it —
fit an affine map `target ≈ origin · coef + intercept` by least squares,
and return the mean over all unordered point pairs of
`|d_fitted - d_target| / max(d_target) · exp(-weight · d_target / max(d_target))`,
together with the fitted projected points, where `d_target` and `d_fitted`
are the pairwise-distance vectors of `target_set` and of the fitted
projection. -/
def weighted_affine_error_spec {dO dT : ℕ}
    (coef : Matrix (Fin dO) (Fin dT) ℝ) (intercept : Point dT)
    (target_set : PointSet dT) (origin_set : PointSet dO)
    (weight : ℝ) : ℝ × PointSet dT :=
  let fitted := origin_set.map (affApply coef intercept)
  let dTgt := fun (p : ℕ × ℕ) =>
    euclidDist (target_set.getD p.1 0) (target_set.getD p.2 0)
  let dFit := fun (p : ℕ × ℕ) =>
    euclidDist (fitted.getD p.1 0) (fitted.getD p.2 0)
  let m := npMax ((indexPairs target_set.length).map dTgt)
  (npMean ((indexPairs target_set.length).map
      (fun p => |dFit p - dTgt p| / m * Real.exp (-weight * dTgt p / m))),
   fitted)

/-- Modelled from the spec: the topology error as §4.5 words it — the mean
over all unordered point pairs of
`d_H / max(d_H) · exp(-weight · d_P / max(d_P))`, comparing the raw
pairwise distances of `h_set` against those of `p_set`, with no affine
fit involved. -/
def topology_error_in_H_spec {dP dH : ℕ}
    (p_set : PointSet dP) (h_set : PointSet dH) (weight : ℝ) : ℝ :=
  let dP' := fun (p : ℕ × ℕ) =>
    euclidDist (p_set.getD p.1 0) (p_set.getD p.2 0)
  let dH' := fun (p : ℕ × ℕ) =>
    euclidDist (h_set.getD p.1 0) (h_set.getD p.2 0)
  let mH := npMax ((indexPairs h_set.length).map dH')
  let mP := npMax ((indexPairs p_set.length).map dP')
  npMean ((indexPairs h_set.length).map
    (fun p => dH' p / mH * Real.exp (-weight * dP' p / mP)))

theorem zipWith_sum_nonneg {α β : Type _} (f : α → β → ℝ)
    (h : ∀ a b, 0 ≤ f a b) :
    ∀ (l1 : List α) (l2 : List β), 0 ≤ (List.zipWith f l1 l2).sum := by
  intro l1
  induction l1 with
  | nil => intro l2; simp
  | cons x xs ih =>
    intro l2
    cases l2 with
    | nil => simp
    | cons y ys => simpa using add_nonneg (h x y) (ih ys)

theorem rss_nonneg {dO dT : ℕ} (coef : Matrix (Fin dO) (Fin dT) ℝ)
    (intercept : Point dT) (origin_set : PointSet dO)
    (target_set : PointSet dT) :
    0 ≤ rss coef intercept origin_set target_set :=
  zipWith_sum_nonneg _
    (fun _ _ => Finset.sum_nonneg (fun _ _ => sq_nonneg _))
    origin_set target_set

theorem affApply_one_zero {d : ℕ} (p : Point d) : affApply 1 0 p = p := by
  funext j
  simp [affApply, Matrix.one_apply, Finset.sum_ite_eq, mul_ite]

theorem rss_self_one_zero {d : ℕ} (X : PointSet d) : rss 1 0 X X = 0 := by
  unfold rss
  rw [List.zipWith_same]
  have h : X.map (fun o => ∑ j, (affApply 1 0 o j - o j) ^ 2) =
      X.map (fun _ => (0 : ℝ)) :=
    List.map_congr_left (fun o _ => by simp [affApply_one_zero o])
  rw [h]
  simp

/-- An ordinary least-squares fit of a point set onto itself: the identity
map already has zero residual, so it is optimal. -/
theorem isLeastSquaresFit_self {d : ℕ} (X : PointSet d) :
    IsLeastSquaresFit 1 0 X X := by
  intro coef' intercept'
  rw [rss_self_one_zero]
  exact rss_nonneg coef' intercept' X X

/-- C1: `compute_weighted_affine_errors_in_P`, given the least-squares
affine fit `target ≈ origin · coef + intercept` of `origin_set` onto
`target_set` (the two sets sharing their row count), returns exactly the
pair described by the spec: the mean over all unordered point pairs of
`|d_fitted - d_target| / max(d_target) · exp(-weight · d_target / max(d_target))`,
and the fitted projected points. -/
theorem compute_weighted_affine_errors_in_P_eq_spec {dO dT : ℕ}
    (coef : Matrix (Fin dO) (Fin dT) ℝ) (intercept : Point dT)
    (target_set : PointSet dT) (origin_set : PointSet dO) (weight : ℝ)
    (hlen : origin_set.length = target_set.length)
    (hfit : IsLeastSquaresFit coef intercept origin_set target_set) :
    compute_weighted_affine_errors_in_P coef intercept target_set origin_set
        weight =
      weighted_affine_error_spec coef intercept target_set origin_set
        weight := by
  simp only [compute_weighted_affine_errors_in_P, weighted_affine_error_spec]
  rw [pdist_eq_indexPairs target_set,
    pdist_eq_indexPairs (origin_set.map (affApply coef intercept)),
    List.length_map, hlen, List.zipWith_map, List.zipWith_same]

/-- Witness for C1 on a concrete two-point set fitted onto itself. -/
theorem compute_weighted_affine_errors_in_P_eq_spec_witness :
    (([fun _ => 0, fun _ => 1] : PointSet 1).length =
        ([fun _ => 0, fun _ => 1] : PointSet 1).length)
    ∧ IsLeastSquaresFit 1 0 ([fun _ => 0, fun _ => 1] : PointSet 1)
        ([fun _ => 0, fun _ => 1] : PointSet 1)
    ∧ compute_weighted_affine_errors_in_P 1 0
        ([fun _ => 0, fun _ => 1] : PointSet 1)
        ([fun _ => 0, fun _ => 1] : PointSet 1) 0 =
      weighted_affine_error_spec 1 0
        ([fun _ => 0, fun _ => 1] : PointSet 1)
        ([fun _ => 0, fun _ => 1] : PointSet 1) 0 :=
  ⟨rfl, isLeastSquaresFit_self _,
    compute_weighted_affine_errors_in_P_eq_spec 1 0 _ _ 0 rfl
      (isLeastSquaresFit_self _)⟩

/-- C2: `compute_topology_error_in_H` on point sets of equal row count
returns exactly the weighted mean the spec describes: over all unordered
point pairs, `d_H / max(d_H) · exp(-weight · d_P / max(d_P))`, comparing
the raw pairwise distances of the embedding to those of the ground truth,
with no affine fit. -/
theorem compute_topology_error_in_H_eq_spec {dP dH : ℕ}
    (p_set : PointSet dP) (h_set : PointSet dH) (weight : ℝ)
    (hlen : p_set.length = h_set.length) :
    compute_topology_error_in_H p_set h_set weight =
      topology_error_in_H_spec p_set h_set weight := by
  simp only [compute_topology_error_in_H, topology_error_in_H_spec]
  rw [pdist_eq_indexPairs p_set, pdist_eq_indexPairs h_set, hlen,
    List.zipWith_map, List.zipWith_same]

/-- Witness for C2 on concrete two-point sets. -/
theorem compute_topology_error_in_H_eq_spec_witness :
    (([fun _ => 0, fun _ => 1] : PointSet 1).length =
        ([fun _ => 0, fun _ => 2] : PointSet 1).length)
    ∧ compute_topology_error_in_H ([fun _ => 0, fun _ => 1] : PointSet 1)
        ([fun _ => 0, fun _ => 2] : PointSet 1) 10 =
      topology_error_in_H_spec ([fun _ => 0, fun _ => 1] : PointSet 1)
        ([fun _ => 0, fun _ => 2] : PointSet 1) 10 :=
  ⟨rfl, compute_topology_error_in_H_eq_spec _ _ 10 rfl⟩

theorem mem_eq_zero_of_sum_eq_zero :
    ∀ {l : List ℝ}, (∀ x ∈ l, 0 ≤ x) → l.sum = 0 → ∀ x ∈ l, x = 0 := by
  intro l
  induction l with
  | nil => intro _ _ x hx; simp at hx
  | cons y ys ih =>
    intro h0 hs x hx
    have hy : 0 ≤ y := h0 y (List.mem_cons_self y ys)
    have hys : 0 ≤ ys.sum :=
      List.sum_nonneg (fun z hz => h0 z (List.mem_cons_of_mem y hz))
    rw [List.sum_cons] at hs
    have hy0 : y = 0 := by linarith
    have hsum0 : ys.sum = 0 := by linarith
    rcases List.mem_cons.1 hx with rfl | hx
    · exact hy0
    · exact ih (fun z hz => h0 z (List.mem_cons_of_mem y hz)) hsum0 x hx

/-- When some affine map reproduces `target_set` exactly from
`origin_set`, any least-squares fit has zero residual, so the fitted
projection coincides with `target_set`. -/
theorem map_affApply_eq_target {dO dT : ℕ}
    {coef : Matrix (Fin dO) (Fin dT) ℝ} {intercept : Point dT}
    {c0 : Matrix (Fin dO) (Fin dT) ℝ} {i0 : Point dT}
    {origin_set : PointSet dO} {target_set : PointSet dT}
    (him : target_set = origin_set.map (affApply c0 i0))
    (hfit : IsLeastSquaresFit coef intercept origin_set target_set) :
    origin_set.map (affApply coef intercept) = target_set := by
  subst him
  have h0 : rss c0 i0 origin_set (origin_set.map (affApply c0 i0)) = 0 := by
    unfold rss
    rw [List.zipWith_map_right, List.zipWith_same]
    have h : origin_set.map
          (fun o => ∑ j, (affApply c0 i0 o j - affApply c0 i0 o j) ^ 2) =
        origin_set.map (fun _ => (0 : ℝ)) :=
      List.map_congr_left (fun o _ => by simp)
    rw [h]
    simp
  have h1 : rss coef intercept origin_set
      (origin_set.map (affApply c0 i0)) = 0 :=
    le_antisymm (h0 ▸ hfit c0 i0) (rss_nonneg _ _ _ _)
  unfold rss at h1
  rw [List.zipWith_map_right, List.zipWith_same] at h1
  refine List.map_congr_left (fun o ho => funext (fun j => ?_))
  have hterm :
      (∑ k, (affApply coef intercept o k - affApply c0 i0 o k) ^ 2) = 0 :=
    mem_eq_zero_of_sum_eq_zero
      (fun x hx => by
        rcases List.mem_map.1 hx with ⟨a, _, rfl⟩
        exact Finset.sum_nonneg (fun k _ => sq_nonneg _))
      h1 _ (List.mem_map.2 ⟨o, ho, rfl⟩)
  have hj := (Finset.sum_eq_zero_iff_of_nonneg
    (fun k _ => sq_nonneg _)).1 hterm j (Finset.mem_univ j)
  have := sq_eq_zero_iff.1 hj
  linarith [this]

/-- A fitted projection equal to the target set makes every summand of
the weighted affine error vanish. -/
theorem weighted_error_zero_of_fitted_eq {dO dT : ℕ}
    (coef : Matrix (Fin dO) (Fin dT) ℝ) (intercept : Point dT)
    (target_set : PointSet dT) (origin_set : PointSet dO) (weight : ℝ)
    (hfe : origin_set.map (affApply coef intercept) = target_set) :
    (compute_weighted_affine_errors_in_P coef intercept target_set
        origin_set weight).1 = 0 := by
  simp only [compute_weighted_affine_errors_in_P, hfe]
  rw [List.zipWith_same]
  unfold npMean
  have h : (pdist target_set).map
        (fun a => |a - a| / npMax (pdist target_set) *
          Real.exp (-weight * a / npMax (pdist target_set))) =
      (pdist target_set).map (fun _ => (0 : ℝ)) :=
    List.map_congr_left (fun a _ => by simp)
  rw [h]
  simp

/-- C3: on a set with at least two distinct points and a nonnegative
weight, fitting a point set onto itself leaves no residual, so
`compute_weighted_affine_errors_in_P(X, X, weight)` returns error `0`. -/
theorem compute_weighted_affine_errors_in_P_self_zero {d : ℕ}
    (X : PointSet d) (weight : ℝ) (hw : 0 ≤ weight)
    (htwo : ∃ p ∈ X, ∃ q ∈ X, p ≠ q)
    (coef : Matrix (Fin d) (Fin d) ℝ) (intercept : Point d)
    (hfit : IsLeastSquaresFit coef intercept X X) :
    (compute_weighted_affine_errors_in_P coef intercept X X weight).1 = 0 := by
  have him : X = X.map (affApply (1 : Matrix (Fin d) (Fin d) ℝ) 0) := by
    rw [show affApply (1 : Matrix (Fin d) (Fin d) ℝ) 0 = id from
      funext affApply_one_zero, List.map_id]
  exact weighted_error_zero_of_fitted_eq coef intercept X X weight
    (map_affApply_eq_target him hfit)

/-- Witness for C3: a concrete two-point set fitted onto itself. -/
theorem compute_weighted_affine_errors_in_P_self_zero_witness :
    ((0 : ℝ) ≤ 2)
    ∧ (∃ p ∈ ([fun _ => 0, fun _ => 1] : PointSet 1),
        ∃ q ∈ ([fun _ => 0, fun _ => 1] : PointSet 1), p ≠ q)
    ∧ IsLeastSquaresFit 1 0 ([fun _ => 0, fun _ => 1] : PointSet 1)
        ([fun _ => 0, fun _ => 1] : PointSet 1)
    ∧ (compute_weighted_affine_errors_in_P 1 0
        ([fun _ => 0, fun _ => 1] : PointSet 1)
        ([fun _ => 0, fun _ => 1] : PointSet 1) 2).1 = 0 := by
  have htwo : ∃ p ∈ ([fun _ => 0, fun _ => 1] : PointSet 1),
      ∃ q ∈ ([fun _ => 0, fun _ => 1] : PointSet 1), p ≠ q := by
    refine ⟨fun _ => 0, by simp, fun _ => 1, by simp, fun he => ?_⟩
    have := congrFun he 0
    norm_num at this
  exact ⟨by norm_num, htwo, isLeastSquaresFit_self _,
    compute_weighted_affine_errors_in_P_self_zero _ 2 (by norm_num) htwo 1 0
      (isLeastSquaresFit_self _)⟩

/-- The origin of the x-axis, as a one-dimensional sample row. -/
def zeroPt : Point 1 := fun _ => 0

/-- The unit point of the x-axis, as a one-dimensional sample row. -/
def onePt : Point 1 := fun _ => 1

/-- The midpoint of `zeroPt` and `onePt`. -/
def halfPt : Point 1 := fun _ => 1 / 2

/-- A target set of two distinct collinear points. -/
def lineTarget : PointSet 1 := [zeroPt, onePt]

/-- An origin set collapsed to a single repeated point: the image of
`lineTarget` under the zero affine map. -/
def flatOrigin : PointSet 1 := [zeroPt, zeroPt]

theorem flat_fit_isLeastSquaresFit :
    IsLeastSquaresFit 0 halfPt flatOrigin lineTarget := by
  intro coef' intercept'
  have h1 : rss 0 halfPt flatOrigin lineTarget = 1 / 2 := by
    simp [rss, affApply, flatOrigin, lineTarget, zeroPt, onePt, halfPt,
      Fin.sum_univ_one]
    norm_num
  have h2 : rss coef' intercept' flatOrigin lineTarget =
      intercept' 0 ^ 2 + (intercept' 0 - 1) ^ 2 := by
    simp [rss, affApply, flatOrigin, lineTarget, zeroPt, onePt,
      Fin.sum_univ_one]
  rw [h1, h2]
  nlinarith [sq_nonneg (intercept' 0 - 1 / 2)]

theorem flat_fit_error_eval (w : ℝ) :
    (compute_weighted_affine_errors_in_P 0 halfPt lineTarget flatOrigin
        w).1 = Real.exp (-w) := by
  have hd0 : euclidDist (affApply (0 : Matrix (Fin 1) (Fin 1) ℝ) halfPt
        zeroPt) (affApply (0 : Matrix (Fin 1) (Fin 1) ℝ) halfPt zeroPt)
      = 0 := by
    simp [euclidDist]
  have hd1 : euclidDist zeroPt onePt = 1 := by
    simp [euclidDist, zeroPt, onePt, Fin.sum_univ_one]
  simp [compute_weighted_affine_errors_in_P, lineTarget, flatOrigin, pdist,
    hd0, hd1, npMax, npMean]

/-- C4 counterexample: `flatOrigin` is an exact affine image of
`lineTarget` (under the zero affine map), yet the weighted affine error
at weight `1` differs from the error at weight `0`, refuting the claim as
stated. -/
theorem compute_weighted_affine_errors_in_P_weight_sensitive :
    flatOrigin = lineTarget.map (affApply 0 0)
    ∧ IsLeastSquaresFit 0 halfPt flatOrigin lineTarget
    ∧ (compute_weighted_affine_errors_in_P 0 halfPt lineTarget flatOrigin
        1).1 ≠
      (compute_weighted_affine_errors_in_P 0 halfPt lineTarget flatOrigin
        0).1 := by
  refine ⟨?_, flat_fit_isLeastSquaresFit, ?_⟩
  · simp only [lineTarget, flatOrigin, List.map_cons, List.map_nil]
    refine congrArg₂ (fun a b => a :: b :: ([] : PointSet 1)) ?_ ?_ <;>
      funext j <;> simp [affApply, zeroPt]
  · rw [flat_fit_error_eval, flat_fit_error_eval, neg_zero, Real.exp_zero]
    exact ne_of_lt (Real.exp_lt_one_iff.2 (by norm_num))

/-- C4 (amended): when `target_set` is an exact affine image of
`origin_set` — so the least-squares fit is exact — the weighted affine
error is `0` at every weight, and in particular identical for weight `0`
and any positive weight. -/
theorem compute_weighted_affine_errors_in_P_exact_fit_weight_invariant
    {dO dT : ℕ} (target_set : PointSet dT) (origin_set : PointSet dO)
    (c0 : Matrix (Fin dO) (Fin dT) ℝ) (i0 : Point dT)
    (him : target_set = origin_set.map (affApply c0 i0))
    (coef : Matrix (Fin dO) (Fin dT) ℝ) (intercept : Point dT)
    (hfit : IsLeastSquaresFit coef intercept origin_set target_set)
    (weight : ℝ) (hw : 0 < weight) :
    (compute_weighted_affine_errors_in_P coef intercept target_set
        origin_set weight).1 =
      (compute_weighted_affine_errors_in_P coef intercept target_set
        origin_set 0).1 := by
  have hfe := map_affApply_eq_target him hfit
  rw [weighted_error_zero_of_fitted_eq _ _ _ _ _ hfe,
    weighted_error_zero_of_fitted_eq _ _ _ _ _ hfe]

/-- Witness for the amended C4 on a concrete exactly-fittable pair. -/
theorem compute_weighted_affine_errors_in_P_exact_fit_weight_invariant_witness :
    lineTarget = lineTarget.map (affApply 1 0)
    ∧ IsLeastSquaresFit 1 0 lineTarget lineTarget
    ∧ (0 : ℝ) < 1
    ∧ (compute_weighted_affine_errors_in_P 1 0 lineTarget lineTarget
        1).1 =
      (compute_weighted_affine_errors_in_P 1 0 lineTarget lineTarget
        0).1 := by
  have him : lineTarget =
      lineTarget.map (affApply (1 : Matrix (Fin 1) (Fin 1) ℝ) 0) := by
    rw [show affApply (1 : Matrix (Fin 1) (Fin 1) ℝ) 0 = id from
      funext affApply_one_zero, List.map_id]
  exact ⟨him, isLeastSquaresFit_self _, by norm_num,
    compute_weighted_affine_errors_in_P_exact_fit_weight_invariant
      lineTarget lineTarget 1 0 him 1 0 (isLeastSquaresFit_self _) 1
      (by norm_num)⟩

theorem euclidDist_nonneg {d : ℕ} (x y : Point d) : 0 ≤ euclidDist x y :=
  Real.sqrt_nonneg _

theorem euclidDist_comm {d : ℕ} (x y : Point d) :
    euclidDist x y = euclidDist y x := by
  unfold euclidDist
  refine congrArg Real.sqrt (Finset.sum_congr rfl (fun i _ => ?_))
  ring

theorem euclidDist_pos_of_ne {d : ℕ} {x y : Point d} (hxy : x ≠ y) :
    0 < euclidDist x y := by
  rcases Function.ne_iff.1 hxy with ⟨i, hi⟩
  refine Real.sqrt_pos.2 (Finset.sum_pos' (fun k _ => sq_nonneg _)
    ⟨i, Finset.mem_univ i, ?_⟩)
  have : x i - y i ≠ 0 := sub_ne_zero_of_ne hi
  positivity

theorem pdist_forall_nonneg {d : ℕ} :
    ∀ (l : PointSet d), ∀ x ∈ pdist l, 0 ≤ x := by
  intro l
  induction l with
  | nil => intro x hx; simp [pdist] at hx
  | cons y ys ih =>
    intro x hx
    rcases List.mem_append.1 hx with hx | hx
    · rcases List.mem_map.1 hx with ⟨z, _, rfl⟩
      exact euclidDist_nonneg y z
    · exact ih x hx

theorem le_npMax_of_mem : ∀ {l : List ℝ} {x : ℝ}, x ∈ l → x ≤ npMax l := by
  intro l
  induction l with
  | nil => intro x hx; simp at hx
  | cons y ys ih =>
    intro x hx
    rcases List.mem_cons.1 hx with rfl | hx
    · exact le_max_left _ _
    · exact le_trans (ih hx) (le_max_right _ _)

theorem dist_mem_pdist {d : ℕ} :
    ∀ {l : PointSet d} {p q : Point d},
      p ∈ l → q ∈ l → p ≠ q → euclidDist p q ∈ pdist l := by
  intro l
  induction l with
  | nil => intro p q hp _ _; simp at hp
  | cons x xs ih =>
    intro p q hp hq hpq
    show euclidDist p q ∈ xs.map (euclidDist x) ++ pdist xs
    rcases List.mem_cons.1 hp with hpx | hp2
    · rcases List.mem_cons.1 hq with hqx | hq2
      · exact absurd (hpx.trans hqx.symm) hpq
      · subst hpx
        exact List.mem_append.2 (Or.inl (List.mem_map.2 ⟨q, hq2, rfl⟩))
    · rcases List.mem_cons.1 hq with hqx | hq2
      · subst hqx
        rw [euclidDist_comm]
        exact List.mem_append.2 (Or.inl (List.mem_map.2 ⟨p, hp2, rfl⟩))
      · exact List.mem_append.2 (Or.inr (ih hp2 hq2 hpq))

theorem npMax_pos_of_distinct {d : ℕ} {l : PointSet d} {p q : Point d}
    (hp : p ∈ l) (hq : q ∈ l) (hpq : p ≠ q) : 0 < npMax (pdist l) :=
  lt_of_lt_of_le (euclidDist_pos_of_ne hpq)
    (le_npMax_of_mem (dist_mem_pdist hp hq hpq))

theorem mem_zipWith {α β γ : Type _} {f : α → β → γ} :
    ∀ {l1 : List α} {l2 : List β} {x : γ},
      x ∈ List.zipWith f l1 l2 → ∃ a ∈ l1, ∃ b ∈ l2, x = f a b := by
  intro l1
  induction l1 with
  | nil => intro l2 x hx; simp at hx
  | cons a as ih =>
    intro l2 x hx
    cases l2 with
    | nil => simp at hx
    | cons b bs =>
      rcases List.mem_cons.1 hx with rfl | hx
      · exact ⟨a, List.mem_cons_self a as, b, List.mem_cons_self b bs, rfl⟩
      · rcases ih hx with ⟨a', ha', b', hb', rfl⟩
        exact ⟨a', List.mem_cons_of_mem a ha', b',
          List.mem_cons_of_mem b hb', rfl⟩

theorem npMean_mem_unit {l : List ℝ} (hne : l ≠ [])
    (h0 : ∀ x ∈ l, 0 ≤ x) (h1 : ∀ x ∈ l, x ≤ 1) :
    0 ≤ npMean l ∧ npMean l ≤ 1 := by
  have hlen : 0 < (l.length : ℝ) := by
    have := List.length_pos.2 hne
    exact_mod_cast this
  constructor
  · exact div_nonneg (List.sum_nonneg h0) (le_of_lt hlen)
  · rw [npMean, div_le_one hlen]
    calc l.sum ≤ l.length • (1 : ℝ) := List.sum_le_card_nsmul l 1 h1
    _ = l.length := by simp

/-- C10: with at least two points on each side, two distinct points in
each set, and a nonnegative weight, every summand of
`compute_topology_error_in_H` lies in `[0, 1]`, hence so does their
mean. -/
theorem compute_topology_error_in_H_mem_unit {dP dH : ℕ}
    (p_set : PointSet dP) (h_set : PointSet dH) (weight : ℝ)
    (hw : 0 ≤ weight)
    (hplen : 2 ≤ p_set.length) (hhlen : 2 ≤ h_set.length)
    (hpd : ∃ p ∈ p_set, ∃ q ∈ p_set, p ≠ q)
    (hhd : ∃ p ∈ h_set, ∃ q ∈ h_set, p ≠ q) :
    0 ≤ compute_topology_error_in_H p_set h_set weight ∧
      compute_topology_error_in_H p_set h_set weight ≤ 1 := by
  rcases hpd with ⟨pp, hpp, pq, hpq, hpne⟩
  rcases hhd with ⟨hp, hhp, hq, hhq, hhne⟩
  have hmaxp : 0 < npMax (pdist p_set) := npMax_pos_of_distinct hpp hpq hpne
  have hmaxh : 0 < npMax (pdist h_set) := npMax_pos_of_distinct hhp hhq hhne
  unfold compute_topology_error_in_H
  set L := List.zipWith
    (fun dh dp => dh / npMax (pdist h_set) *
      Real.exp (-weight * dp / npMax (pdist p_set)))
    (pdist h_set) (pdist p_set) with hL
  have hbound : ∀ x ∈ L, 0 ≤ x ∧ x ≤ 1 := by
    intro x hx
    rcases mem_zipWith hx with ⟨dh, hdh, dp, hdp, rfl⟩
    have hdh0 : 0 ≤ dh := pdist_forall_nonneg h_set dh hdh
    have hdp0 : 0 ≤ dp := pdist_forall_nonneg p_set dp hdp
    have hdhle : dh ≤ npMax (pdist h_set) := le_npMax_of_mem hdh
    have hratio0 : 0 ≤ dh / npMax (pdist h_set) :=
      div_nonneg hdh0 (le_of_lt hmaxh)
    have hratio1 : dh / npMax (pdist h_set) ≤ 1 :=
      (div_le_one hmaxh).2 hdhle
    have hexp0 : 0 < Real.exp (-weight * dp / npMax (pdist p_set)) :=
      Real.exp_pos _
    have hexp1 : Real.exp (-weight * dp / npMax (pdist p_set)) ≤ 1 := by
      rw [Real.exp_le_one_iff]
      have hnum : -weight * dp ≤ 0 := by
        have := mul_nonneg hw hdp0
        linarith
      exact div_nonpos_of_nonpos_of_nonneg hnum (le_of_lt hmaxp)
    constructor
    · exact mul_nonneg hratio0 (le_of_lt hexp0)
    · calc dh / npMax (pdist h_set) *
            Real.exp (-weight * dp / npMax (pdist p_set)) ≤
          1 * 1 := mul_le_mul hratio1 hexp1 (le_of_lt hexp0) zero_le_one
        _ = 1 := one_mul 1
  have hne : L ≠ [] := by
    have hlh : pdist h_set ≠ [] := by
      intro hnil
      rw [hnil] at hmaxh
      simp [npMax] at hmaxh
    have hlp : pdist p_set ≠ [] := by
      intro hnil
      rw [hnil] at hmaxp
      simp [npMax] at hmaxp
    rw [hL]
    cases hh : pdist h_set with
    | nil => exact absurd hh hlh
    | cons a as =>
      cases hp2 : pdist p_set with
      | nil => exact absurd hp2 hlp
      | cons b bs => simp
  exact npMean_mem_unit hne (fun x hx => (hbound x hx).1)
    (fun x hx => (hbound x hx).2)

/-- Witness for C10 on two concrete two-point sets. -/
theorem compute_topology_error_in_H_mem_unit_witness :
    ((0 : ℝ) ≤ 50)
    ∧ 2 ≤ lineTarget.length ∧ 2 ≤ lineTarget.length
    ∧ (∃ p ∈ lineTarget, ∃ q ∈ lineTarget, p ≠ q)
    ∧ (0 ≤ compute_topology_error_in_H lineTarget lineTarget 50 ∧
        compute_topology_error_in_H lineTarget lineTarget 50 ≤ 1) := by
  have htwo : ∃ p ∈ lineTarget, ∃ q ∈ lineTarget, p ≠ q := by
    refine ⟨zeroPt, by simp [lineTarget], onePt, by simp [lineTarget],
      fun he => ?_⟩
    have := congrFun he 0
    norm_num [zeroPt, onePt] at this
  exact ⟨by norm_num, by norm_num [lineTarget], by norm_num [lineTarget],
    htwo,
    compute_topology_error_in_H_mem_unit lineTarget lineTarget 50
      (by norm_num) (by norm_num [lineTarget]) (by norm_num [lineTarget])
      htwo htwo⟩

/-- Semantics of `tf.train.polynomial_decay(initial, global_step,
decay_steps, end_learning_rate, power)` with `cycle=False`, as wired in
`Networks.py` lines 119-121: the step is clamped at the horizon and the
rate decays polynomially from `initial` to `endRate`. -/
def polynomial_decay (initial endRate horizon power s : ℝ) : ℝ :=
  (initial - endRate) * (1 - min s horizon / horizon) ^ power + endRate

/-- Modelled from the spec: the formula the spec states for the rate at
step `s`, `initial + (final − initial) · (min(s, horizon)/horizon)^power`. -/
def claimed_learning_rate (initial endRate horizon power s : ℝ) : ℝ :=
  initial + (endRate - initial) * (min s horizon / horizon) ^ power

/-- C5 counterexample: with `initial = 1`, `final = 0`, `horizon = 2` and
`power = 2`, at step `1` the decay used by the code yields `1/4` while
the claim's formula yields `3/4`. -/
theorem polynomial_decay_formula_mismatch :
    polynomial_decay 1 0 2 2 1 ≠ claimed_learning_rate 1 0 2 2 1 := by
  have hmin : min (1 : ℝ) 2 = 1 := by norm_num
  have h1 : polynomial_decay 1 0 2 2 1 = 1 / 4 := by
    unfold polynomial_decay
    rw [hmin]
    rw [show (1 - 1 / 2 : ℝ) = 1 / 2 by norm_num, Real.rpow_two]
    norm_num
  have h2 : claimed_learning_rate 1 0 2 2 1 = 3 / 4 := by
    unfold claimed_learning_rate
    rw [hmin]
    rw [Real.rpow_two]
    norm_num
  rw [h1, h2]
  norm_num

/-- C5 (amended): for a positive horizon and positive power, the rate at
step `s` is `endRate + (initial − endRate) · (1 − min(s, horizon)/horizon)^power`
(which agrees with the claim's formula exactly when `power = 1`); it
equals `initial` at step `0`, equals `endRate` from the horizon onwards,
stays within `[min(initial, endRate), max(initial, endRate)]` for every
step `s ≥ 0`, and is monotone over the steps: nondecreasing when
`initial ≤ endRate` and nonincreasing when `endRate ≤ initial`. -/
theorem polynomial_decay_schedule (initial endRate horizon power : ℝ)
    (hh : 0 < horizon) (hp : 0 < power) :
    polynomial_decay initial endRate horizon power 0 = initial
    ∧ (∀ s, horizon ≤ s →
        polynomial_decay initial endRate horizon power s = endRate)
    ∧ (∀ s, 0 ≤ s →
        min initial endRate ≤
            polynomial_decay initial endRate horizon power s
          ∧ polynomial_decay initial endRate horizon power s ≤
            max initial endRate)
    ∧ (initial ≤ endRate →
        MonotoneOn (polynomial_decay initial endRate horizon power)
          (Set.Ici 0))
    ∧ (endRate ≤ initial →
        AntitoneOn (polynomial_decay initial endRate horizon power)
          (Set.Ici 0))
    ∧ (power = 1 → ∀ s,
        polynomial_decay initial endRate horizon power s =
          claimed_learning_rate initial endRate horizon power s) := by
  have hbase_nonneg : ∀ s : ℝ, 0 ≤ 1 - min s horizon / horizon := by
    intro s
    have h1 : min s horizon / horizon ≤ 1 := by
      rw [div_le_one hh]
      exact min_le_right s horizon
    linarith
  have hbase_le_one : ∀ s : ℝ, 0 ≤ s → 1 - min s horizon / horizon ≤ 1 := by
    intro s hs
    have h0 : 0 ≤ min s horizon / horizon :=
      div_nonneg (le_min hs (le_of_lt hh)) (le_of_lt hh)
    linarith
  have hu_nonneg : ∀ s : ℝ,
      0 ≤ (1 - min s horizon / horizon) ^ power :=
    fun s => Real.rpow_nonneg (hbase_nonneg s) power
  have hu_le_one : ∀ s : ℝ, 0 ≤ s →
      (1 - min s horizon / horizon) ^ power ≤ 1 :=
    fun s hs =>
      Real.rpow_le_one (hbase_nonneg s) (hbase_le_one s hs) (le_of_lt hp)
  have hu_anti : ∀ s t : ℝ, s ≤ t →
      (1 - min t horizon / horizon) ^ power ≤
        (1 - min s horizon / horizon) ^ power := by
    intro s t hst
    refine Real.rpow_le_rpow (hbase_nonneg t) ?_ (le_of_lt hp)
    have hm : min s horizon ≤ min t horizon :=
      min_le_min hst (le_refl horizon)
    have hdiv : min s horizon / horizon ≤ min t horizon / horizon :=
      (div_le_div_iff_of_pos_right hh).2 hm
    linarith
  refine ⟨?_, ?_, ?_, ?_, ?_, ?_⟩
  · unfold polynomial_decay
    rw [min_eq_left (le_of_lt hh), zero_div, sub_zero, Real.one_rpow]
    ring
  · intro s hs
    unfold polynomial_decay
    rw [min_eq_right hs, div_self (ne_of_gt hh), sub_self,
      Real.zero_rpow (ne_of_gt hp)]
    ring
  · intro s hs
    have h0 := hu_nonneg s
    have h1 := hu_le_one s hs
    unfold polynomial_decay
    rcases le_total initial endRate with hle | hle
    · rw [min_eq_left hle, max_eq_right hle]
      constructor <;> nlinarith
    · rw [min_eq_right hle, max_eq_left hle]
      constructor <;> nlinarith
  · intro hle s hs t ht hst
    have hu := hu_anti s t hst
    unfold polynomial_decay
    nlinarith
  · intro hle s hs t ht hst
    have hu := hu_anti s t hst
    unfold polynomial_decay
    nlinarith
  · intro hpow s
    subst hpow
    unfold polynomial_decay claimed_learning_rate
    rw [Real.rpow_one, Real.rpow_one]
    ring

/-- Witness for the amended C5 at concrete schedule constants. -/
theorem polynomial_decay_schedule_witness :
    ((0 : ℝ) < 2) ∧ ((0 : ℝ) < 1)
    ∧ (polynomial_decay 1 0 2 1 0 = 1
      ∧ (∀ s, (2 : ℝ) ≤ s → polynomial_decay 1 0 2 1 s = 0)
      ∧ (∀ s, (0 : ℝ) ≤ s →
          min (1 : ℝ) 0 ≤ polynomial_decay 1 0 2 1 s
            ∧ polynomial_decay 1 0 2 1 s ≤ max (1 : ℝ) 0)
      ∧ ((1 : ℝ) ≤ 0 →
          MonotoneOn (polynomial_decay 1 0 2 1) (Set.Ici 0))
      ∧ ((0 : ℝ) ≤ 1 →
          AntitoneOn (polynomial_decay 1 0 2 1) (Set.Ici 0))
      ∧ ((1 : ℝ) = 1 → ∀ s,
          polynomial_decay 1 0 2 1 s = claimed_learning_rate 1 0 2 1 s)) :=
  ⟨by norm_num, by norm_num,
    polynomial_decay_schedule 1 0 2 1 (by norm_num) (by norm_num)⟩

/-- Kernel and bias of one fully connected layer, as stored in one
TensorFlow variable pair. -/
abbrev DenseParams := List (List ℝ) × List ℝ

/-- A TensorFlow variable store: named variables in creation order. -/
abbrev VarStore := List (String × DenseParams)

/-- First binding of a name in the store, if any. -/
def lookupVar (store : VarStore) (n : String) : Option DenseParams :=
  match store with
  | [] => none
  | (m, p) :: rest => if m = n then some p else lookupVar rest n

/-- Semantics of variable creation under `tf.AUTO_REUSE`: an existing
binding of the name is reused, otherwise a fresh one is appended. -/
def getOrCreate (store : VarStore) (n : String) (fresh : DenseParams) :
    DenseParams × VarStore :=
  match lookupVar store n with
  | some p => (p, store)
  | none => (fresh, store ++ [(n, fresh)])

/-- Retrieve (creating on first use) the variables of a list of names, in
order, threading the store through. -/
def getVarsList (names : List String) (init : String → DenseParams)
    (store : VarStore) : List DenseParams × VarStore :=
  match names with
  | [] => ([], store)
  | n :: rest =>
    let pr := getOrCreate store n (init n)
    let tail := getVarsList rest init pr.2
    (pr.1 :: tail.1, tail.2)

theorem lookupVar_append_of_eq_some {store : VarStore} {n : String}
    {p : DenseParams} (h : lookupVar store n = some p)
    (more : VarStore) : lookupVar (store ++ more) n = some p := by
  induction store with
  | nil => simp [lookupVar] at h
  | cons e rest ih =>
    rcases e with ⟨m, q⟩
    by_cases hmn : m = n
    · simp [lookupVar, hmn] at h ⊢
      exact h
    · simp [lookupVar, hmn] at h ⊢
      exact ih h

theorem lookupVar_getOrCreate_self (store : VarStore) (n : String)
    (fresh : DenseParams) :
    lookupVar (getOrCreate store n fresh).2 n =
      some (getOrCreate store n fresh).1 := by
  unfold getOrCreate
  cases h : lookupVar store n with
  | some p => simp [h]
  | none =>
    simp only [h]
    induction store with
    | nil => simp [lookupVar]
    | cons e rest ih =>
      rcases e with ⟨m, q⟩
      by_cases hmn : m = n
      · simp [lookupVar, hmn] at h
      · simp [lookupVar, hmn] at h ⊢
        exact ih h

theorem lookupVar_getOrCreate_of_eq_some {store : VarStore} {n : String}
    {p : DenseParams} (h : lookupVar store n = some p)
    (m : String) (fresh : DenseParams) :
    lookupVar (getOrCreate store m fresh).2 n = some p := by
  unfold getOrCreate
  cases hm : lookupVar store m with
  | some q => simpa using h
  | none => exact lookupVar_append_of_eq_some h _

theorem lookupVar_getVarsList_of_eq_some {names : List String}
    {init : String → DenseParams} {store : VarStore} {n : String}
    {p : DenseParams} (h : lookupVar store n = some p) :
    lookupVar (getVarsList names init store).2 n = some p := by
  induction names generalizing store with
  | nil => simpa [getVarsList]
  | cons m rest ih =>
    simp only [getVarsList]
    exact ih (lookupVar_getOrCreate_of_eq_some h m (init m))

theorem getOrCreate_of_eq_some {store : VarStore} {n : String}
    {p : DenseParams} (h : lookupVar store n = some p)
    (fresh : DenseParams) : getOrCreate store n fresh = (p, store) := by
  unfold getOrCreate
  rw [h]

/-- Running the same variable retrieval a second time on the store left by
the first run reuses every binding: no new variables appear and the same
parameters come back. -/
theorem getVarsList_idem (names : List String)
    (init : String → DenseParams) (store : VarStore) :
    getVarsList names init (getVarsList names init store).2 =
      getVarsList names init store := by
  induction names generalizing store with
  | nil => simp [getVarsList]
  | cons n rest ih =>
    simp only [getVarsList]
    have hself := lookupVar_getOrCreate_self store n (init n)
    have hkeep :
        lookupVar (getVarsList rest init
            (getOrCreate store n (init n)).2).2 n =
          some (getOrCreate store n (init n)).1 :=
      lookupVar_getVarsList_of_eq_some hself
    rw [getOrCreate_of_eq_some hkeep (init n), ih]

/-- One fully connected layer: each output unit applies the activation to
a weighted sum of the inputs plus a bias (`tf.layers.dense`). -/
def denseApply (act : ℝ → ℝ) (p : DenseParams) (x : List ℝ) : List ℝ :=
  (List.range p.2.length).map (fun j =>
    act ((List.zipWith (fun xi row => xi * row.getD j 0) x p.1).sum +
      p.2.getD j 0))

/-- Names of the variables created by `mlp` inside a scope: hidden layers
`layer0`, `layer1`, …, then the linear output layer `layerend`. -/
def layerNames (scope : String) (numHidden : ℕ) : List String :=
  (List.range numHidden).map (fun i => scope ++ "/layer" ++ toString i) ++
    [scope ++ "/layerend"]

/-- Apply an MLP given its per-layer parameters: every layer but the last
uses the activation, the final layer is linear (`mlp` in `Networks.py`,
lines 13-27). -/
def mlpApply (act : ℝ → ℝ) : List DenseParams → List ℝ → List ℝ
  | [], x => x
  | [p], x => denseApply id p x
  | p :: q :: rest, x => mlpApply act (q :: rest) (denseApply act p x)

/-- The encoder section of the network constructor (`Networks.py`, lines
95-105): inside the single variable scope `motor_encoding` opened with
`AUTO_REUSE`, build the encoding MLP twice — once fed `motor_t`, once fed
`motor_tp` — threading one variable store through both calls. -/
def buildEncoders (numHidden : ℕ) (act : ℝ → ℝ)
    (init : String → DenseParams) (store : VarStore) :
    (List ℝ → List ℝ) × (List ℝ → List ℝ) × VarStore :=
  let names := layerNames "motor_encoding" numHidden
  let build_t := getVarsList names init store
  let build_tp := getVarsList names init build_t.2
  (mlpApply act build_t.1, mlpApply act build_tp.1, build_tp.2)

/-- C6: on every input and every parameter state (initializer and prior
variable store), the embedding computed through the `motor_t` encoder
branch coincides with the embedding computed through the `motor_tp`
branch: the shared `AUTO_REUSE` scope makes the second `mlp` call reuse
the identical underlying variables. -/
theorem motor_encoding_weight_sharing (numHidden : ℕ) (act : ℝ → ℝ)
    (init : String → DenseParams) (store : VarStore) (x : List ℝ) :
    (buildEncoders numHidden act init store).1 x =
      (buildEncoders numHidden act init store).2.1 x := by
  simp only [buildEncoders]
  rw [getVarsList_idem]

/-- Step counter after one `train(data, number_epochs)` call: each
`minimize_op` run advances the TensorFlow `global_step` by exactly one,
`number_epochs` times. -/
def train_steps (step : ℕ) : ℕ → ℕ
  | 0 => step
  | k + 1 => train_steps (step + 1) k

theorem train_steps_eq (step k : ℕ) : train_steps step k = step + k := by
  induction k generalizing step with
  | zero => simp [train_steps]
  | succ k ih =>
    rw [train_steps, ih]
    omega

/-- Observable state of the training loop: the `global_step` counter plus
the step counts at which `track_progress` and `save_network` ran. -/
structure TrainState where
  step : ℕ
  evals : List ℕ
  saves : List ℕ

/-- One iteration of the `while epoch < n_epochs` body of `full_train`:
train for 1000 optimizer steps, invoke the progress tracker, and
checkpoint the network. -/
def train_cycle (st : TrainState) : TrainState :=
  { step := train_steps st.step 1000,
    evals := st.evals ++ [train_steps st.step 1000],
    saves := st.saves ++ [train_steps st.step 1000] }

/-- The `while epoch < n_epochs` loop of `full_train`. -/
def full_train_loop (n_epochs : ℕ) (st : TrainState) : TrainState :=
  if h : st.step < n_epochs then full_train_loop n_epochs (train_cycle st)
  else st
termination_by n_epochs - st.step
decreasing_by
  simp only [train_cycle, train_steps_eq]
  omega

/-- Embedding of `full_train` (`Networks.py`, lines 164-237), restricted
to its observable scheduling: an initial evaluation at step `0`, cycles
of 1000 optimizer steps each followed by an evaluation and a checkpoint
while the counter is below `n_epochs`, then one final evaluation. -/
def full_train (n_epochs : ℕ) : TrainState :=
  let st1 := full_train_loop n_epochs { step := 0, evals := [0], saves := [] }
  { st1 with evals := st1.evals ++ [st1.step] }

/-- State of the token session held by the network (`self.sess`). -/
inductive SessionState
  | acquired
  | released

/-- Exit action of a `with` block: on leaving the block, the context
manager releases its resource whatever state it was in. -/
def closeSession : SessionState → SessionState :=
  fun _ => SessionState.released

/-- Embedding of `full_train` including the execution-context lifecycle:
the `with tf.Session() as self.sess` block (`Networks.py`, line 184)
acquires the session, the training loop and the final evaluation run
inside the block, and the block's exit releases the session before
`full_train` returns. -/
def full_train_ctx (n_epochs : ℕ) : TrainState × SessionState :=
  let sess := SessionState.acquired
  let st1 := full_train_loop n_epochs { step := 0, evals := [0], saves := [] }
  let st2 : TrainState := { st1 with evals := st1.evals ++ [st1.step] }
  (st2, closeSession sess)

theorem full_train_loop_of_ge (n_epochs : ℕ) (st : TrainState)
    (h : n_epochs ≤ st.step) : full_train_loop n_epochs st = st := by
  rw [full_train_loop, dif_neg (by omega)]

theorem full_train_loop_of_lt (n_epochs : ℕ) (st : TrainState)
    (h : st.step < n_epochs) :
    full_train_loop n_epochs st = full_train_loop n_epochs (train_cycle st) := by
  rw [full_train_loop]
  rw [dif_pos h]

theorem full_train_loop_spec (n_epochs : ℕ) :
    ∀ (k : ℕ) (st : TrainState),
      (∀ j, j < k → st.step + 1000 * j < n_epochs) →
      n_epochs ≤ st.step + 1000 * k →
      full_train_loop n_epochs st =
        { step := st.step + 1000 * k,
          evals := st.evals ++
            (List.range k).map (fun i => st.step + 1000 * (i + 1)),
          saves := st.saves ++
            (List.range k).map (fun i => st.step + 1000 * (i + 1)) } := by
  intro k
  induction k with
  | zero =>
    intro st _ hge
    simp only [Nat.mul_zero, Nat.add_zero] at hge
    rw [full_train_loop_of_ge _ _ hge]
    simp
  | succ k ih =>
    intro st hlt hge
    have h0 : st.step < n_epochs := by
      have := hlt 0 (Nat.succ_pos k)
      omega
    rw [full_train_loop_of_lt _ _ h0]
    have hcy : train_cycle st =
        { step := st.step + 1000,
          evals := st.evals ++ [st.step + 1000],
          saves := st.saves ++ [st.step + 1000] } := by
      simp [train_cycle, train_steps_eq]
    rw [hcy]
    have hih := ih
        ({ step := st.step + 1000,
           evals := st.evals ++ [st.step + 1000],
           saves := st.saves ++ [st.step + 1000] } : TrainState)
        (by intro j hj
            show st.step + 1000 + 1000 * j < n_epochs
            have := hlt (j + 1) (by omega)
            omega)
        (by show n_epochs ≤ st.step + 1000 + 1000 * k
            omega)
    rw [hih]
    have hmap : (List.range (k + 1)).map
          (fun i => st.step + 1000 * (i + 1)) =
        (st.step + 1000) ::
          (List.range k).map (fun i => st.step + 1000 + 1000 * (i + 1)) := by
      rw [List.range_succ_eq_map, List.map_cons, List.map_map]
      refine congrArg₂ (· :: ·) (by omega) ?_
      exact List.map_congr_left (fun i _ => by
        simp [Function.comp]
        omega)
    dsimp only
    have hstep : st.step + 1000 + 1000 * k = st.step + 1000 * (k + 1) := by
      omega
    rw [hmap, hstep, List.append_assoc, List.singleton_append,
      List.append_assoc, List.singleton_append]

/-- C7 counterexample: with `n_epochs = 1` the loop still runs one full
1000-step cycle, so `full_train` returns with the step counter at 1000,
not at `n_epochs`. -/
theorem full_train_step_not_n_epochs : (full_train 1).step ≠ 1 := by
  have h := full_train_loop_spec 1 1
    ({ step := 0, evals := [0], saves := [] } : TrainState)
    (by intro j hj
        show 0 + 1000 * j < 1
        omega)
    (by show (1 : ℕ) ≤ 0 + 1000 * 1
        omega)
  simp only [full_train, h]
  norm_num

/-- C7 (amended): the step counter advances by exactly one per optimizer
step; starting from a positive `n_epochs`, `full_train` runs
`⌈n_epochs / 1000⌉` cycles of 1000 optimizer steps, checkpointing once
per cycle (at steps 1000, 2000, …) and evaluating at step 0, after each
cycle, and once more after the loop; on return the step counter equals
`1000 · ⌈n_epochs / 1000⌉`, which equals `n_epochs` exactly when
`n_epochs` is a multiple of 1000; and the execution context acquired by
the `with` block is released before the call returns. -/
theorem full_train_schedule (n_epochs : ℕ) (hn : 0 < n_epochs) :
    (∀ s k, train_steps s k = s + k)
    ∧ (full_train n_epochs).step = 1000 * ((n_epochs + 999) / 1000)
    ∧ (1000 ∣ n_epochs → (full_train n_epochs).step = n_epochs)
    ∧ (full_train n_epochs).saves =
        (List.range ((n_epochs + 999) / 1000)).map (fun i => 1000 * (i + 1))
    ∧ (full_train n_epochs).evals =
        0 :: ((List.range ((n_epochs + 999) / 1000)).map
            (fun i => 1000 * (i + 1))
          ++ [1000 * ((n_epochs + 999) / 1000)])
    ∧ (full_train_ctx n_epochs).1 = full_train n_epochs
    ∧ (full_train_ctx n_epochs).2 = SessionState.released := by
  have h := full_train_loop_spec n_epochs ((n_epochs + 999) / 1000)
    ({ step := 0, evals := [0], saves := [] } : TrainState)
    (by intro j hj
        show 0 + 1000 * j < n_epochs
        omega)
    (by show n_epochs ≤ 0 + 1000 * ((n_epochs + 999) / 1000)
        omega)
  have hfn : ∀ i : ℕ, 0 + 1000 * (i + 1) = 1000 * (i + 1) := fun i => by
    omega
  simp only [full_train, h]
  refine ⟨train_steps_eq, by omega, fun hdvd => by omega, ?_, ?_,
    by simp only [full_train_ctx, full_train, h], rfl⟩
  · dsimp only
    exact List.map_congr_left (fun i _ => by omega)
  · dsimp only
    rw [List.map_congr_left (fun i _ => hfn i)]
    simp

/-- Witness for the amended C7 at `n_epochs = 2000`. -/
theorem full_train_schedule_witness :
    0 < 2000
    ∧ ((∀ s k, train_steps s k = s + k)
      ∧ (full_train 2000).step = 1000 * ((2000 + 999) / 1000)
      ∧ (1000 ∣ 2000 → (full_train 2000).step = 2000)
      ∧ (full_train 2000).saves =
          (List.range ((2000 + 999) / 1000)).map (fun i => 1000 * (i + 1))
      ∧ (full_train 2000).evals =
          0 :: ((List.range ((2000 + 999) / 1000)).map
              (fun i => 1000 * (i + 1))
            ++ [1000 * ((2000 + 999) / 1000)])
      ∧ (full_train_ctx 2000).1 = full_train 2000
      ∧ (full_train_ctx 2000).2 = SessionState.released) :=
  ⟨by norm_num, full_train_schedule 2000 (by norm_num)⟩

/-- The display-process lifecycle inside `full_train` (`Networks.py`,
lines 174-181 and 235-237): when `disp` is set, a display process is
launched only by the `Windows` and `Linux` branches (there is no other
branch), and after the training session closes the code unconditionally
evaluates `display_proc.kill()`; on any other platform the local variable
`display_proc` was never assigned, so that evaluation raises. -/
def display_lifecycle (disp : Bool) (platform_system : String) :
    Except String Unit :=
  let display_proc : Option Unit :=
    if disp then
      if platform_system = "Windows" then some ()
      else if platform_system = "Linux" then some ()
      else none
    else none
  if disp then
    match display_proc with
    | some _ => Except.ok ()
    | none => Except.error "UnboundLocalError"
  else Except.ok ()

/-- C8: contrary to the claim, requesting the display on a platform that
is neither Windows nor Linux does not let the run complete without
raising: the unconditional `display_proc.kill()` after the session
references a variable the launch branches never assigned, and the run
raises an `UnboundLocalError`. -/
theorem display_lifecycle_unsupported_raises :
    display_lifecycle true "Darwin" = Except.error "UnboundLocalError" :=
  rfl

/-- On the two supported platforms, and whenever the display is not
requested, the lifecycle completes normally. -/
theorem display_lifecycle_supported_ok :
    display_lifecycle true "Windows" = Except.ok ()
    ∧ display_lifecycle true "Linux" = Except.ok ()
    ∧ display_lifecycle false "Darwin" = Except.ok () :=
  ⟨rfl, rfl, rfl⟩

/-- Embedding of `save` (`Networks.py`, lines 366-382): the whole body —
building the serializable attribute dictionary and writing
`network_params.txt` — runs inside `try`, so its outcome is abstracted as
a parameter; a bare `except` catches any failure, reports it, and
returns `False`, while on success the function falls through and returns
`None`. -/
def save (write_outcome : Except String Unit) :
    Except String (Option Bool) :=
  match write_outcome with
  | Except.ok _ => Except.ok none
  | Except.error _ => Except.ok (some false)

/-- C9: `save` never raises — whatever happens to the hyper-parameter
record write, it returns normally, and on any failure it returns the
failure indicator `False`. -/
theorem save_never_raises (write_outcome : Except String Unit) :
    (∃ v, save write_outcome = Except.ok v)
    ∧ (∀ e, write_outcome = Except.error e →
        save write_outcome = Except.ok (some false)) := by
  cases write_outcome with
  | ok u =>
    refine ⟨⟨none, rfl⟩, fun e he => ?_⟩
    cases he
  | error e => exact ⟨⟨some false, rfl⟩, fun e' he' => rfl⟩

/-- Witness for C9 at a concrete failing write. -/
theorem save_never_raises_witness :
    (∃ v, save (Except.error "disk full") = Except.ok v)
    ∧ (∀ e, (Except.error "disk full" : Except String Unit) =
          Except.error e →
        save (Except.error "disk full") = Except.ok (some false)) :=
  save_never_raises (Except.error "disk full")
